import Mathlib

/-!
Verification of the version-resolution core of VersionVisualizer
(`src/js/versionResolver.js`): a shallow embedding of `resolveVersion`,
`baseResult`, `buildExplanation` and `resolveVersionName`, followed by
theorems about availability, coverage, selection and the result invariants.

Instants are modelled as `Int` milliseconds.  A JavaScript value that may
reach the `options.inclusiveEnd` slot is modelled by `JSVal`, so that both
the destructuring default (`const { inclusiveEnd = true } = options`, which
fires only on `undefined`), the truthiness test of the ternary applied in
`inRange`, and the echo `options.inclusiveEnd !== false` are captured
faithfully.
-/

/-- A JavaScript value as far as the resolver observes one: `undefined`,
`null`, booleans, numbers and strings.  Only identity with `false`,
identity with `undefined` and truthiness are ever consulted. -/
inductive JSVal where
  | undef : JSVal
  | null : JSVal
  | bool (b : Bool) : JSVal
  | num (n : Int) : JSVal
  | str (s : String) : JSVal
deriving DecidableEq

/-- JavaScript truthiness for the modelled values. -/
def JSVal.truthy : JSVal → Bool
  | .undef => false
  | .null => false
  | .bool b => b
  | .num n => decide (n ≠ 0)
  | .str s => decide (s ≠ "")

/-- The `options` argument of `resolveVersion`: a JS object whose
`inclusiveEnd` property is `undef` when the key is absent. -/
structure ResolveOptions where
  inclusiveEnd : JSVal := .undef
deriving DecidableEq

/-- `const { inclusiveEnd = true } = options` — the default fires exactly
when the property is `undefined`. -/
def destructuredInclusiveEnd (o : ResolveOptions) : JSVal :=
  if o.inclusiveEnd = .undef then .bool true else o.inclusiveEnd

/-- The boolean actually applied by the ternary
`inclusiveEnd ? (v.open <= t && t <= v.close) : (v.open <= t && t < v.close)`:
the truthiness of the destructured binding. -/
def appliedInclusiveEnd (o : ResolveOptions) : Bool :=
  (destructuredInclusiveEnd o).truthy

/-- The normalization `options.inclusiveEnd !== false` performed by
`baseResult` when echoing the options. -/
def echoedInclusiveEnd (o : ResolveOptions) : Bool :=
  decide (o.inclusiveEnd ≠ .bool false)

/-- A `purchaseDate`/`travelDate` argument: either a raw millisecond number
or a `Date` whose `getTime()` is the given instant. -/
inductive TimeArg where
  | ms (n : Int) : TimeArg
  | date (n : Int) : TimeArg
deriving DecidableEq

/-- `x instanceof Date ? x.getTime() : x` — normalization to milliseconds. -/
def TimeArg.norm : TimeArg → Int
  | .ms n => n
  | .date n => n

/-- A version record `{version, publishDate, open, close}`; further payload
fields are ignored by the resolver. -/
structure VersionRecord where
  version : String
  publishDate : Int
  «open» : Int
  close : Int
deriving DecidableEq

/-- The `versions` argument: either a genuine array of records, or any
non-array JS value (for which `Array.isArray` is `false` and which the
resolver never inspects further). -/
inductive VersionsArg where
  | arr (l : List VersionRecord) : VersionsArg
  | notArray : VersionsArg
deriving DecidableEq

/-- The normalized options object `{ inclusiveEnd }` echoed in the result. -/
structure EchoedOptions where
  inclusiveEnd : Bool
deriving DecidableEq

/-- The result object built by `baseResult`. -/
structure ResolveResult where
  «match» : Option VersionRecord
  reason : String
  candidates : List VersionRecord
  available : List VersionRecord
  futureCovering : List VersionRecord
  purchaseDate : Int
  travelDate : Int
  options : EchoedOptions
  explanation : String
deriving DecidableEq

/-- `fmt(d) = new Date(d).toLocaleDateString()`; the locale-dependent
rendering of the instant is abstracted as its decimal rendering. -/
def fmt (d : Int) : String := toString d

/-- First sentence of the `NO_AVAILABLE_VERSIONS` explanation. -/
def noAvailableMsg (pStr : String) : String :=
  "Ingen versjoner var publisert på kjøpsdato " ++ pStr ++
    ". Første publisering er senere enn kjøpsdato."

/-- Base sentence of the `NO_VERSION_COVERS_TRAVEL_DATE` explanation,
stating the number of available versions. -/
def noCoverBase (n : Nat) (pStr tStr endWord : String) : String :=
  "Det fantes " ++ toString n ++ " publiserte versjon(er) på kjøpsdato " ++
    pStr ++ ", men ingen hadde en gyldighetsperiode som dekker reisedato " ++
    tStr ++ ". (Sluttdato er " ++ endWord ++ ")."

/-- Aside appended in the `NO_VERSION_COVERS_TRAVEL_DATE` case when
`futureCovering` is non-empty, naming the record and its publish date. -/
def noCoverFutureAside (f : VersionRecord) : String :=
  " En nyere versjon (" ++ f.version ++ ", publisert " ++ fmt f.publishDate ++
    ") ville ha dekket reisedatoen men var ikke tilgjengelig ved kjøp."

/-- Main sentence of the `OK` explanation. -/
def okMain (m : VersionRecord) (pStr tStr endWord : String) : String :=
  m.version ++ " fordi den var publisert (" ++ fmt m.publishDate ++
    " er før kjøpsdato " ++ pStr ++ ") og reisedato " ++ tStr ++
    " ligger innenfor gyldighetsperioden " ++ fmt m.«open» ++ " – " ++
    fmt m.close ++ " (" ++ endWord ++ " slutt)."

/-- Note appended in the `OK` case when more than one candidate existed. -/
def okOlderNote (k : Nat) (m : VersionRecord) : String :=
  if 1 < k then
    " Det fantes " ++ toString (k - 1) ++
      " annen/andre eldre kandidat(er) som også dekket reisedatoen, men " ++
      m.version ++ " er nyere (senere publishDate)."
  else ""

/-- Aside appended in the `OK` case when `futureCovering` is non-empty. -/
def okFutureAside (f : VersionRecord) : String :=
  " En senere versjon (" ++ f.version ++ ", publisert " ++ fmt f.publishDate ++
    ") ville også dekke reisedatoen men var ikke publisert på kjøpsdato."

/-- `buildExplanation` from `versionResolver.js`.  The source indexes
`futureCovering[futureCovering.length - 1]` under a `length > 0` guard,
which is `List.getLast?` here. -/
def buildExplanation (m : Option VersionRecord)
    (candidates available futureCovering : List VersionRecord)
    (purchaseDate travelDate : Int) (reason : String) (inclusiveEnd : Bool) :
    String :=
  let pStr := fmt purchaseDate
  let tStr := fmt travelDate
  let endWord := if inclusiveEnd then "inkludert" else "eksklusiv"
  if reason = "NO_AVAILABLE_VERSIONS" then
    noAvailableMsg pStr
  else if reason = "NO_VERSION_COVERS_TRAVEL_DATE" then
    let base := noCoverBase available.length pStr tStr endWord
    match futureCovering.getLast? with
    | some f => base ++ noCoverFutureAside f
    | none => base
  else if reason = "OK" then
    match m with
    | some mv =>
      let core := okMain mv pStr tStr endWord ++
        okOlderNote candidates.length mv
      (match futureCovering.getLast? with
       | some f => core ++ okFutureAside f
       | none => core)
    | none => ""
  else ""

/-- `baseResult` from `versionResolver.js`. -/
def baseResult (m : Option VersionRecord)
    (candidates available futureCovering : List VersionRecord)
    (purchaseDate travelDate : Int) (options : ResolveOptions)
    (reason explanation : String) : ResolveResult :=
  { «match» := m
    reason := reason
    candidates := candidates
    available := available
    futureCovering := futureCovering
    purchaseDate := purchaseDate
    travelDate := travelDate
    options := { inclusiveEnd := echoedInclusiveEnd options }
    explanation := explanation }

/-- The coverage predicate `inRange`. -/
def inRange (inclusiveEnd : Bool) (t : Int) (v : VersionRecord) : Bool :=
  if inclusiveEnd then decide (v.«open» ≤ t) && decide (t ≤ v.close)
  else decide (v.«open» ≤ t) && decide (t < v.close)

/-- Insert a record into a list already sorted ascending by `publishDate`,
before the first element whose `publishDate` is not strictly smaller. -/
def insertByPublishDate (x : VersionRecord) :
    List VersionRecord → List VersionRecord
  | [] => [x]
  | y :: ys =>
    if y.publishDate < x.publishDate then y :: insertByPublishDate x ys
    else x :: y :: ys

/-- `[...versions].sort((a, b) => a.publishDate - b.publishDate)`: the
stable sort ascending by `publishDate`, modelled as the stable insertion
sort (each element is placed after the strictly smaller keys and before
the equal ones that preceded it in the input). -/
def sortByPublishDate : List VersionRecord → List VersionRecord
  | [] => []
  | x :: xs => insertByPublishDate x (sortByPublishDate xs)

/-- The body of the `reduce` of step "Velg nyeste": replace the
accumulator when the current record has strictly greater `publishDate`,
or equal `publishDate` and strictly greater `open`. -/
def pickNewer (acc : Option VersionRecord) (cur : VersionRecord) :
    Option VersionRecord :=
  match acc with
  | none => some cur
  | some a =>
    if cur.publishDate > a.publishDate then some cur
    else if cur.publishDate = a.publishDate ∧ cur.«open» > a.«open» then
      some cur
    else some a

/-- `available = sorted.filter(v => v.publishDate <= p)` where `sorted` is
the stable `publishDate`-ascending sort of the input. -/
def availableOf (vs : List VersionRecord) (p : Int) : List VersionRecord :=
  (sortByPublishDate vs).filter (fun v => decide (v.publishDate ≤ p))

/-- `futureCovering = sorted.filter(v => v.publishDate > p && inRange(v))`. -/
def futureCoveringOf (vs : List VersionRecord) (p : Int)
    (inclusiveEnd : Bool) (t : Int) : List VersionRecord :=
  (sortByPublishDate vs).filter
    (fun v => decide (v.publishDate > p) && inRange inclusiveEnd t v)

/-- `candidates = available.filter(inRange)`. -/
def candidatesOf (vs : List VersionRecord) (p : Int)
    (inclusiveEnd : Bool) (t : Int) : List VersionRecord :=
  (availableOf vs p).filter (inRange inclusiveEnd t)

/-- `resolveVersion` from `versionResolver.js`. -/
def resolveVersion (versions : VersionsArg) (purchaseDate travelDate : TimeArg)
    (options : ResolveOptions) : ResolveResult :=
  let inclusiveEnd := appliedInclusiveEnd options
  let p := purchaseDate.norm
  let t := travelDate.norm
  match versions with
  | .notArray =>
    baseResult none [] [] [] p t options "NO_AVAILABLE_VERSIONS"
      (buildExplanation none [] [] [] p t "NO_AVAILABLE_VERSIONS" inclusiveEnd)
  | .arr vs =>
    if vs.length = 0 then
      baseResult none [] [] [] p t options "NO_AVAILABLE_VERSIONS"
        (buildExplanation none [] [] [] p t "NO_AVAILABLE_VERSIONS"
          inclusiveEnd)
    else
      let available := availableOf vs p
      let futureCovering := futureCoveringOf vs p inclusiveEnd t
      if available.length = 0 then
        baseResult none [] available futureCovering p t options
          "NO_AVAILABLE_VERSIONS"
          (buildExplanation none [] available futureCovering p t
            "NO_AVAILABLE_VERSIONS" inclusiveEnd)
      else
        let candidates := available.filter (inRange inclusiveEnd t)
        if candidates.length = 0 then
          baseResult none candidates available futureCovering p t options
            "NO_VERSION_COVERS_TRAVEL_DATE"
            (buildExplanation none candidates available futureCovering p t
              "NO_VERSION_COVERS_TRAVEL_DATE" inclusiveEnd)
        else
          let m := candidates.foldl pickNewer none
          baseResult m candidates available futureCovering p t options "OK"
            (buildExplanation m candidates available futureCovering p t "OK"
              inclusiveEnd)

/-- `resolveVersionName` from `versionResolver.js`. -/
def resolveVersionName (versions : VersionsArg)
    (purchaseDate travelDate : TimeArg) (options : ResolveOptions) :
    Option String :=
  let r := resolveVersion versions purchaseDate travelDate options
  r.«match».map (fun m => m.version)

/-- Lexicographic (non-strict) preference on `(publishDate, open)`. -/
def pubOpenLe (a b : VersionRecord) : Prop :=
  a.publishDate < b.publishDate ∨
    (a.publishDate = b.publishDate ∧ a.«open» ≤ b.«open»)

/-- Lexicographic (strict) preference on `(publishDate, open)`. -/
def pubOpenLt (a b : VersionRecord) : Prop :=
  a.publishDate < b.publishDate ∨
    (a.publishDate = b.publishDate ∧ a.«open» < b.«open»)

instance (a b : VersionRecord) : Decidable (pubOpenLe a b) := by
  unfold pubOpenLe; infer_instance

instance (a b : VersionRecord) : Decidable (pubOpenLt a b) := by
  unfold pubOpenLt; infer_instance

example :
    (resolveVersion (.arr [⟨"v1", 100, 100, 200⟩]) (.ms 150) (.ms 150)
      ⟨.undef⟩).reason = "OK" := by decide

example :
    (resolveVersion (.arr [⟨"v1", 100, 100, 200⟩]) (.ms 50) (.ms 150)
      ⟨.undef⟩).reason = "NO_AVAILABLE_VERSIONS" := by decide

example :
    (resolveVersion (.arr [⟨"v1", 100, 100, 200⟩]) (.ms 150) (.ms 300)
      ⟨.undef⟩).reason = "NO_VERSION_COVERS_TRAVEL_DATE" := by decide

example :
    resolveVersionName
      (.arr [⟨"v1", 100, 100, 200⟩, ⟨"v2", 150, 100, 200⟩])
      (.ms 160) (.ms 150) ⟨.undef⟩ = some "v2" := by decide

example :
    (resolveVersion (.arr [⟨"v1", 100, 100, 200⟩]) (.ms 150) (.ms 200)
      ⟨.bool false⟩).reason = "NO_VERSION_COVERS_TRAVEL_DATE" := by decide

/-! ### Basic facts about the stable sort -/

lemma insertByPublishDate_perm (x : VersionRecord) (l : List VersionRecord) :
    (insertByPublishDate x l).Perm (x :: l) := by
  induction l with
  | nil => simp [insertByPublishDate]
  | cons y ys ih =>
    by_cases h : y.publishDate < x.publishDate
    · simp only [insertByPublishDate, if_pos h]
      exact (ih.cons y).trans (List.Perm.swap x y ys)
    · simp [insertByPublishDate, h]

lemma sortByPublishDate_perm (l : List VersionRecord) :
    (sortByPublishDate l).Perm l := by
  induction l with
  | nil => simp [sortByPublishDate]
  | cons x xs ih =>
    exact (insertByPublishDate_perm x (sortByPublishDate xs)).trans (ih.cons x)

lemma mem_sortByPublishDate {v : VersionRecord} {l : List VersionRecord} :
    v ∈ sortByPublishDate l ↔ v ∈ l :=
  (sortByPublishDate_perm l).mem_iff

lemma insertByPublishDate_pairwise (x : VersionRecord)
    {l : List VersionRecord}
    (h : l.Pairwise (fun a b => a.publishDate ≤ b.publishDate)) :
    (insertByPublishDate x l).Pairwise
      (fun a b => a.publishDate ≤ b.publishDate) := by
  induction l with
  | nil => simp [insertByPublishDate]
  | cons y ys ih =>
    rw [List.pairwise_cons] at h
    by_cases hxy : y.publishDate < x.publishDate
    · simp only [insertByPublishDate, if_pos hxy]
      rw [List.pairwise_cons]
      refine ⟨?_, ih h.2⟩
      intro z hz
      rw [(insertByPublishDate_perm x ys).mem_iff, List.mem_cons] at hz
      rcases hz with rfl | hz
      · exact le_of_lt hxy
      · exact h.1 z hz
    · simp only [insertByPublishDate, if_neg hxy]
      rw [List.pairwise_cons]
      refine ⟨?_, List.pairwise_cons.mpr h⟩
      intro z hz
      rw [List.mem_cons] at hz
      rcases hz with rfl | hz
      · exact le_of_not_lt hxy
      · exact le_trans (le_of_not_lt hxy) (h.1 z hz)

lemma sortByPublishDate_pairwise (l : List VersionRecord) :
    (sortByPublishDate l).Pairwise
      (fun a b => a.publishDate ≤ b.publishDate) := by
  induction l with
  | nil => simp [sortByPublishDate]
  | cons x xs ih => exact insertByPublishDate_pairwise x ih

lemma getLast?_mem_of_eq_some {α : Type} {l : List α} {a : α}
    (h : l.getLast? = some a) : a ∈ l := by
  induction l with
  | nil => simp at h
  | cons x xs ih =>
    cases xs with
    | nil =>
      rw [List.getLast?_singleton] at h
      simp [Option.some.injEq] at h
      simp [h]
    | cons y ys =>
      rw [List.getLast?_cons_cons] at h
      exact List.mem_cons_of_mem x (ih h)

lemma pairwise_getLast?_max {l : List VersionRecord}
    (hs : l.Pairwise (fun a b => a.publishDate ≤ b.publishDate))
    {f : VersionRecord} (hf : l.getLast? = some f) :
    ∀ g ∈ l, g.publishDate ≤ f.publishDate := by
  induction l with
  | nil => simp at hf
  | cons x xs ih =>
    cases xs with
    | nil =>
      rw [List.getLast?_singleton] at hf
      simp only [Option.some.injEq] at hf
      subst hf
      intro g hg
      simp only [List.mem_singleton] at hg
      subst hg
      exact le_refl _
    | cons y ys =>
      rw [List.getLast?_cons_cons] at hf
      rw [List.pairwise_cons] at hs
      intro g hg
      rw [List.mem_cons] at hg
      rcases hg with rfl | hg
      · exact le_trans (hs.1 y (List.mem_cons_self y ys))
          (ih hs.2 hf y (List.mem_cons_self y ys))
      · exact ih hs.2 hf g hg

/-! ### Facts about the selection fold -/

lemma pickNewer_some (a c : VersionRecord) :
    pickNewer (some a) c = if pubOpenLt a c then some c else some a := by
  show (if c.publishDate > a.publishDate then some c
        else if c.publishDate = a.publishDate ∧ c.«open» > a.«open» then some c
        else some a) = _
  by_cases h1 : c.publishDate > a.publishDate
  · rw [if_pos h1, if_pos (show pubOpenLt a c from Or.inl h1)]
  · rw [if_neg h1]
    by_cases h2 : c.publishDate = a.publishDate ∧ c.«open» > a.«open»
    · rw [if_pos h2, if_pos (show pubOpenLt a c from Or.inr ⟨h2.1.symm, h2.2⟩)]
    · rw [if_neg h2, if_neg]
      intro hc
      rcases hc with hc | ⟨hc1, hc2⟩
      · exact h1 hc
      · exact h2 ⟨hc1.symm, hc2⟩

lemma pubOpenLe_refl (a : VersionRecord) : pubOpenLe a a :=
  Or.inr ⟨rfl, le_refl _⟩

lemma pubOpenLe_of_lt {a b : VersionRecord} (h : pubOpenLt a b) :
    pubOpenLe a b := by
  rcases h with h | ⟨h1, h2⟩
  · exact Or.inl h
  · exact Or.inr ⟨h1, le_of_lt h2⟩

lemma pubOpenLe_trans {a b c : VersionRecord}
    (h1 : pubOpenLe a b) (h2 : pubOpenLe b c) : pubOpenLe a c := by
  rcases h1 with h1 | ⟨h1a, h1b⟩ <;> rcases h2 with h2 | ⟨h2a, h2b⟩
  · exact Or.inl (lt_trans h1 h2)
  · exact Or.inl (h2a ▸ h1)
  · exact Or.inl (h1a ▸ h2)
  · exact Or.inr ⟨h1a.trans h2a, le_trans h1b h2b⟩

lemma pubOpenLe_of_not_lt {a b : VersionRecord} (h : ¬ pubOpenLt a b) :
    pubOpenLe b a := by
  unfold pubOpenLt at h
  unfold pubOpenLe
  push_neg at h
  rcases lt_trichotomy b.publishDate a.publishDate with hlt | heq | hgt
  · exact Or.inl hlt
  · exact Or.inr ⟨heq, le_of_not_lt (fun hc => (h.2 heq.symm).not_lt hc)⟩
  · exact absurd hgt h.1.not_lt

lemma pubOpenLt_of_lt_of_le {a b c : VersionRecord}
    (h1 : pubOpenLt a b) (h2 : pubOpenLe b c) : pubOpenLt a c := by
  rcases h1 with h1 | ⟨h1a, h1b⟩ <;> rcases h2 with h2 | ⟨h2a, h2b⟩
  · exact Or.inl (lt_trans h1 h2)
  · exact Or.inl (h2a ▸ h1)
  · exact Or.inl (h1a ▸ h2)
  · exact Or.inr ⟨h1a.trans h2a, lt_of_lt_of_le h1b h2b⟩

lemma pubOpenLt_of_le_of_lt {a b c : VersionRecord}
    (h1 : pubOpenLe a b) (h2 : pubOpenLt b c) : pubOpenLt a c := by
  rcases h1 with h1 | ⟨h1a, h1b⟩ <;> rcases h2 with h2 | ⟨h2a, h2b⟩
  · exact Or.inl (lt_trans h1 h2)
  · exact Or.inl (h2a ▸ h1)
  · exact Or.inl (h1a ▸ h2)
  · exact Or.inr ⟨h1a.trans h2a, lt_of_le_of_lt h1b h2b⟩

lemma pubOpenLe_key_antisymm {a b : VersionRecord}
    (h1 : pubOpenLe a b) (h2 : pubOpenLe b a) :
    a.publishDate = b.publishDate ∧ a.«open» = b.«open» := by
  rcases h1 with h1 | ⟨h1a, h1b⟩ <;> rcases h2 with h2 | ⟨h2a, h2b⟩
  · exact absurd h1 h2.asymm
  · exact absurd h1 (h2a ▸ lt_irrefl _)
  · exact absurd h2 (h1a ▸ lt_irrefl _)
  · exact ⟨h1a, le_antisymm h1b h2b⟩

lemma foldl_pickNewer_char (l : List VersionRecord) :
    ∀ a : VersionRecord, ∃ m l1 l2,
      l.foldl pickNewer (some a) = some m ∧
      a :: l = l1 ++ m :: l2 ∧
      (∀ x ∈ l1, pubOpenLt x m) ∧
      (∀ x ∈ a :: l, pubOpenLe x m) := by
  induction l with
  | nil =>
    intro a
    refine ⟨a, [], [], rfl, rfl, by simp, ?_⟩
    intro x hx
    simp only [List.mem_singleton] at hx
    subst hx
    exact pubOpenLe_refl _
  | cons c rest ih =>
    intro a
    rw [List.foldl_cons, pickNewer_some]
    by_cases h : pubOpenLt a c
    · rw [if_pos h]
      obtain ⟨m, l1, l2, hfold, hsplit, hl1, hle⟩ := ih c
      refine ⟨m, a :: l1, l2, hfold, ?_, ?_, ?_⟩
      · rw [List.cons_append, ← hsplit]
      · intro x hx
        rw [List.mem_cons] at hx
        rcases hx with rfl | hx
        · exact pubOpenLt_of_lt_of_le h (hle c (List.mem_cons_self c rest))
        · exact hl1 x hx
      · intro x hx
        rw [List.mem_cons] at hx
        rcases hx with rfl | hx
        · exact pubOpenLe_of_lt
            (pubOpenLt_of_lt_of_le h (hle c (List.mem_cons_self c rest)))
        · exact hle x hx
    · rw [if_neg h]
      obtain ⟨m, l1, l2, hfold, hsplit, hl1, hle⟩ := ih a
      cases l1 with
      | nil =>
        simp only [List.nil_append, List.cons.injEq] at hsplit
        obtain ⟨ham, hrest⟩ := hsplit
        refine ⟨m, [], c :: rest, hfold, ?_, by simp, ?_⟩
        · rw [List.nil_append, ← ham]
        · intro x hx
          rw [List.mem_cons] at hx
          rcases hx with rfl | hx
          · exact hle x (List.mem_cons_self x rest)
          · rw [List.mem_cons] at hx
            rcases hx with rfl | hx
            · exact pubOpenLe_trans (pubOpenLe_of_not_lt h)
                (hle a (List.mem_cons_self a rest))
            · exact hle x (List.mem_cons_of_mem a hx)
      | cons u l1' =>
        rw [List.cons_append, List.cons.injEq] at hsplit
        obtain ⟨rfl, hrest⟩ := hsplit
        have ham : pubOpenLt a m := hl1 a (List.mem_cons_self a l1')
        refine ⟨m, a :: c :: l1', l2, hfold, ?_, ?_, ?_⟩
        · rw [List.cons_append, List.cons_append, ← hrest]
        · intro x hx
          rw [List.mem_cons] at hx
          rcases hx with rfl | hx
          · exact ham
          · rw [List.mem_cons] at hx
            rcases hx with rfl | hx
            · exact pubOpenLt_of_le_of_lt (pubOpenLe_of_not_lt h) ham
            · exact hl1 x (List.mem_cons_of_mem a hx)
        · intro x hx
          rw [List.mem_cons] at hx
          rcases hx with rfl | hx
          · exact hle x (List.mem_cons_self x _)
          · rw [List.mem_cons] at hx
            rcases hx with rfl | hx
            · exact pubOpenLe_of_lt
                (pubOpenLt_of_le_of_lt (pubOpenLe_of_not_lt h) ham)
            · exact hle x (List.mem_cons_of_mem a hx)

lemma foldl_pickNewer_none_char {l : List VersionRecord} (h : l ≠ []) :
    ∃ m l1 l2,
      l.foldl pickNewer none = some m ∧
      l = l1 ++ m :: l2 ∧
      (∀ x ∈ l1, pubOpenLt x m) ∧
      (∀ x ∈ l, pubOpenLe x m) := by
  cases l with
  | nil => exact absurd rfl h
  | cons c rest =>
    rw [List.foldl_cons]
    exact foldl_pickNewer_char rest c

/-! ### Membership and ordering of the pipeline stages -/

lemma mem_availableOf {v : VersionRecord} {vs : List VersionRecord} {p : Int} :
    v ∈ availableOf vs p ↔ v ∈ vs ∧ v.publishDate ≤ p := by
  simp [availableOf, List.mem_filter, mem_sortByPublishDate]

lemma mem_candidatesOf {v : VersionRecord} {vs : List VersionRecord} {p : Int}
    {incl : Bool} {t : Int} :
    v ∈ candidatesOf vs p incl t ↔
      (v ∈ vs ∧ v.publishDate ≤ p) ∧ inRange incl t v = true := by
  simp [candidatesOf, List.mem_filter, mem_availableOf]

lemma mem_futureCoveringOf {v : VersionRecord} {vs : List VersionRecord}
    {p : Int} {incl : Bool} {t : Int} :
    v ∈ futureCoveringOf vs p incl t ↔
      v ∈ vs ∧ p < v.publishDate ∧ inRange incl t v = true := by
  simp [futureCoveringOf, List.mem_filter, mem_sortByPublishDate, and_assoc]

lemma availableOf_pairwise (vs : List VersionRecord) (p : Int) :
    (availableOf vs p).Pairwise (fun a b => a.publishDate ≤ b.publishDate) :=
  (sortByPublishDate_pairwise vs).filter _

lemma candidatesOf_pairwise (vs : List VersionRecord) (p : Int) (incl : Bool)
    (t : Int) :
    (candidatesOf vs p incl t).Pairwise
      (fun a b => a.publishDate ≤ b.publishDate) :=
  (availableOf_pairwise vs p).filter _

lemma futureCoveringOf_pairwise (vs : List VersionRecord) (p : Int)
    (incl : Bool) (t : Int) :
    (futureCoveringOf vs p incl t).Pairwise
      (fun a b => a.publishDate ≤ b.publishDate) :=
  (sortByPublishDate_pairwise vs).filter _

/-! ### The fields of a `resolveVersion` result -/

lemma resolveVersion_available (vs : List VersionRecord) (p t : TimeArg)
    (o : ResolveOptions) :
    (resolveVersion (.arr vs) p t o).available = availableOf vs p.norm := by
  simp only [resolveVersion]
  split_ifs with h1 h2 h3
  · obtain rfl : vs = [] := List.length_eq_zero.mp h1
    rfl
  all_goals rfl

lemma resolveVersion_futureCovering (vs : List VersionRecord) (p t : TimeArg)
    (o : ResolveOptions) :
    (resolveVersion (.arr vs) p t o).futureCovering =
      futureCoveringOf vs p.norm (appliedInclusiveEnd o) t.norm := by
  simp only [resolveVersion]
  split_ifs with h1 h2 h3
  · obtain rfl : vs = [] := List.length_eq_zero.mp h1
    rfl
  all_goals rfl

lemma resolveVersion_candidates (vs : List VersionRecord) (p t : TimeArg)
    (o : ResolveOptions) :
    (resolveVersion (.arr vs) p t o).candidates =
      candidatesOf vs p.norm (appliedInclusiveEnd o) t.norm := by
  simp only [resolveVersion]
  split_ifs with h1 h2 h3
  · obtain rfl : vs = [] := List.length_eq_zero.mp h1
    rfl
  · have ha : availableOf vs p.norm = [] := List.length_eq_zero.mp h2
    show ([] : List VersionRecord) = candidatesOf vs p.norm _ t.norm
    rw [candidatesOf, ha]
    rfl
  all_goals rfl

lemma resolveVersion_match (vs : List VersionRecord) (p t : TimeArg)
    (o : ResolveOptions) :
    (resolveVersion (.arr vs) p t o).«match» =
      (candidatesOf vs p.norm (appliedInclusiveEnd o) t.norm).foldl
        pickNewer none := by
  simp only [resolveVersion]
  split_ifs with h1 h2 h3
  · obtain rfl : vs = [] := List.length_eq_zero.mp h1
    rfl
  · have ha : availableOf vs p.norm = [] := List.length_eq_zero.mp h2
    show none = (candidatesOf vs p.norm _ t.norm).foldl pickNewer none
    rw [candidatesOf, ha]
    rfl
  · have hc : candidatesOf vs p.norm (appliedInclusiveEnd o) t.norm = [] :=
      List.length_eq_zero.mp h3
    show none = (candidatesOf vs p.norm _ t.norm).foldl pickNewer none
    rw [hc]
    rfl
  · rfl

lemma resolveVersion_reason (vs : List VersionRecord) (p t : TimeArg)
    (o : ResolveOptions) :
    (resolveVersion (.arr vs) p t o).reason =
      if availableOf vs p.norm = [] then "NO_AVAILABLE_VERSIONS"
      else if candidatesOf vs p.norm (appliedInclusiveEnd o) t.norm = [] then
        "NO_VERSION_COVERS_TRAVEL_DATE"
      else "OK" := by
  simp only [resolveVersion, candidatesOf, List.length_eq_zero]
  split_ifs with h1 h2 h3 <;>
    first
      | rfl
      | (subst h1; exact absurd rfl h2)

lemma resolveVersion_options (versions : VersionsArg) (p t : TimeArg)
    (o : ResolveOptions) :
    (resolveVersion versions p t o).options = ⟨echoedInclusiveEnd o⟩ := by
  cases versions with
  | notArray => rfl
  | arr vs =>
    simp only [resolveVersion]
    split_ifs <;> rfl

lemma resolveVersion_purchaseDate (versions : VersionsArg) (p t : TimeArg)
    (o : ResolveOptions) :
    (resolveVersion versions p t o).purchaseDate = p.norm := by
  cases versions with
  | notArray => rfl
  | arr vs =>
    simp only [resolveVersion]
    split_ifs <;> rfl

lemma resolveVersion_travelDate (versions : VersionsArg) (p t : TimeArg)
    (o : ResolveOptions) :
    (resolveVersion versions p t o).travelDate = t.norm := by
  cases versions with
  | notArray => rfl
  | arr vs =>
    simp only [resolveVersion]
    split_ifs <;> rfl

lemma resolveVersion_explanation (vs : List VersionRecord) (p t : TimeArg)
    (o : ResolveOptions) :
    (resolveVersion (.arr vs) p t o).explanation =
      buildExplanation ((resolveVersion (.arr vs) p t o).«match»)
        ((resolveVersion (.arr vs) p t o).candidates)
        ((resolveVersion (.arr vs) p t o).available)
        ((resolveVersion (.arr vs) p t o).futureCovering)
        p.norm t.norm ((resolveVersion (.arr vs) p t o).reason)
        (appliedInclusiveEnd o) := by
  simp only [resolveVersion]
  split_ifs with h1 h2 h3
  all_goals rfl

/-! ### Claims -/

/-- Claim C1: for every array input of version records and every pair of
instants, `available` is exactly the set of records with `publishDate` at
or before the normalized purchase instant; if it is empty the result has
reason `NO_AVAILABLE_VERSIONS`, no match and empty candidates; otherwise
`candidates` is exactly the set of available records whose window contains
the normalized travel instant under the active inclusivity rule; if that
is empty the reason is `NO_VERSION_COVERS_TRAVEL_DATE` with no match;
otherwise the reason is `OK` and a match is present. -/
theorem claim_C1 (vs : List VersionRecord) (p t : TimeArg)
    (o : ResolveOptions) :
    (∀ v, v ∈ (resolveVersion (.arr vs) p t o).available ↔
      v ∈ vs ∧ v.publishDate ≤ p.norm) ∧
    (∀ v, v ∈ (resolveVersion (.arr vs) p t o).candidates ↔
      v ∈ (resolveVersion (.arr vs) p t o).available ∧
        inRange (appliedInclusiveEnd o) t.norm v = true) ∧
    ((resolveVersion (.arr vs) p t o).available = [] →
      (resolveVersion (.arr vs) p t o).reason = "NO_AVAILABLE_VERSIONS" ∧
      (resolveVersion (.arr vs) p t o).«match» = none ∧
      (resolveVersion (.arr vs) p t o).candidates = []) ∧
    ((resolveVersion (.arr vs) p t o).available ≠ [] →
      (resolveVersion (.arr vs) p t o).candidates = [] →
      (resolveVersion (.arr vs) p t o).reason =
        "NO_VERSION_COVERS_TRAVEL_DATE" ∧
      (resolveVersion (.arr vs) p t o).«match» = none) ∧
    ((resolveVersion (.arr vs) p t o).candidates ≠ [] →
      (resolveVersion (.arr vs) p t o).reason = "OK" ∧
      (resolveVersion (.arr vs) p t o).«match» ≠ none) := by
  rw [resolveVersion_available, resolveVersion_candidates,
    resolveVersion_match, resolveVersion_reason]
  refine ⟨fun v => mem_availableOf, ?_, ?_, ?_, ?_⟩
  · intro v
    rw [candidatesOf, List.mem_filter]
  · intro h
    rw [if_pos h, candidatesOf, h]
    exact ⟨rfl, rfl, rfl⟩
  · intro h hc
    rw [if_neg h, if_pos hc, hc]
    exact ⟨rfl, rfl⟩
  · intro hc
    have ha : availableOf vs p.norm ≠ [] := by
      intro he
      apply hc
      rw [candidatesOf, he]
      rfl
    obtain ⟨m, l1, l2, hfold, _, _, _⟩ := foldl_pickNewer_none_char hc
    rw [if_neg ha, if_neg hc, hfold]
    exact ⟨rfl, fun he => Option.noConfusion he⟩

/-- Claim C2: whenever the candidate set is non-empty, the reason is `OK`
and the match is a candidate that is lexicographically maximal for
(`publishDate`, then `open`), every candidate strictly before it in the
`publishDate`-ascending candidate ordering being strictly smaller in that
order (so on ties in both keys the earlier-encountered candidate wins). -/
theorem claim_C2 (vs : List VersionRecord) (p t : TimeArg)
    (o : ResolveOptions)
    (h : (resolveVersion (.arr vs) p t o).candidates ≠ []) :
    (resolveVersion (.arr vs) p t o).reason = "OK" ∧
    ∃ m l1 l2, (resolveVersion (.arr vs) p t o).«match» = some m ∧
      (resolveVersion (.arr vs) p t o).candidates = l1 ++ m :: l2 ∧
      (∀ c ∈ l1, pubOpenLt c m) ∧
      (∀ c ∈ (resolveVersion (.arr vs) p t o).candidates, pubOpenLe c m) := by
  rw [resolveVersion_candidates] at h
  have ha : availableOf vs p.norm ≠ [] := by
    intro he
    apply h
    rw [candidatesOf, he]
    rfl
  obtain ⟨m, l1, l2, hfold, hsplit, hl1, hle⟩ := foldl_pickNewer_none_char h
  constructor
  · rw [resolveVersion_reason, if_neg ha, if_neg h]
  · refine ⟨m, l1, l2, ?_, ?_, hl1, ?_⟩
    · rw [resolveVersion_match, hfold]
    · rw [resolveVersion_candidates, hsplit]
    · intro c hc
      rw [resolveVersion_candidates] at hc
      exact hle c hc

/-- Witness for claim C2 at a concrete input: Scenario D of the spec. -/
theorem claim_C2_witness :
    (resolveVersion
        (.arr [⟨"v1", 100, 100, 200⟩, ⟨"v2", 150, 100, 200⟩])
        (.ms 160) (.ms 150) ⟨.undef⟩).reason = "OK" ∧
    ∃ m l1 l2,
      (resolveVersion
          (.arr [⟨"v1", 100, 100, 200⟩, ⟨"v2", 150, 100, 200⟩])
          (.ms 160) (.ms 150) ⟨.undef⟩).«match» = some m ∧
      (resolveVersion
          (.arr [⟨"v1", 100, 100, 200⟩, ⟨"v2", 150, 100, 200⟩])
          (.ms 160) (.ms 150) ⟨.undef⟩).candidates = l1 ++ m :: l2 ∧
      (∀ c ∈ l1, pubOpenLt c m) ∧
      (∀ c ∈ (resolveVersion
          (.arr [⟨"v1", 100, 100, 200⟩, ⟨"v2", 150, 100, 200⟩])
          (.ms 160) (.ms 150) ⟨.undef⟩).candidates, pubOpenLe c m) :=
  claim_C2 [⟨"v1", 100, 100, 200⟩, ⟨"v2", 150, 100, 200⟩]
    (.ms 160) (.ms 150) ⟨.undef⟩ (by decide)

/-- Claim C6: for an empty array or any non-array `versions` argument the
resolver returns (totally, without failing) the `NO_AVAILABLE_VERSIONS`
result with no match and empty `candidates` and `available` echoes. -/
theorem claim_C6 (p t : TimeArg) (o : ResolveOptions) :
    ((resolveVersion .notArray p t o).reason = "NO_AVAILABLE_VERSIONS" ∧
     (resolveVersion .notArray p t o).«match» = none ∧
     (resolveVersion .notArray p t o).candidates = [] ∧
     (resolveVersion .notArray p t o).available = [] ∧
     (resolveVersion .notArray p t o).futureCovering = []) ∧
    ((resolveVersion (.arr []) p t o).reason = "NO_AVAILABLE_VERSIONS" ∧
     (resolveVersion (.arr []) p t o).«match» = none ∧
     (resolveVersion (.arr []) p t o).candidates = [] ∧
     (resolveVersion (.arr []) p t o).available = [] ∧
     (resolveVersion (.arr []) p t o).futureCovering = []) :=
  ⟨⟨rfl, rfl, rfl, rfl, rfl⟩, ⟨rfl, rfl, rfl, rfl, rfl⟩⟩

/-- Claim C7: for fixed versions, travel date and options, enlarging the
purchase instant never removes a record from `available`. -/
theorem claim_C7 (vs : List VersionRecord) (t : TimeArg) (o : ResolveOptions)
    (p1 p2 : TimeArg) (h : p1.norm ≤ p2.norm) :
    ∀ v ∈ (resolveVersion (.arr vs) p1 t o).available,
      v ∈ (resolveVersion (.arr vs) p2 t o).available := by
  intro v hv
  rw [resolveVersion_available, mem_availableOf] at hv ⊢
  exact ⟨hv.1, le_trans hv.2 h⟩

/-- Witness for claim C7 at a concrete input. -/
theorem claim_C7_witness :
    (⟨"v1", 100, 100, 200⟩ : VersionRecord) ∈
      (resolveVersion (.arr [⟨"v1", 100, 100, 200⟩]) (.ms 300) (.ms 150)
        ⟨.undef⟩).available :=
  claim_C7 [⟨"v1", 100, 100, 200⟩] (.ms 150) ⟨.undef⟩ (.ms 120) (.ms 300)
    (by decide) ⟨"v1", 100, 100, 200⟩ (by decide)

/-- Claim C10: result invariants for every array input — candidates are
available; available records are published by the purchase instant while
future-covering ones are published strictly after it (so the two echoes are
disjoint); all three echoes are ordered ascending by `publishDate`; and a
present match is a candidate and never future-covering. -/
theorem claim_C10 (vs : List VersionRecord) (p t : TimeArg)
    (o : ResolveOptions) :
    (∀ v ∈ (resolveVersion (.arr vs) p t o).candidates,
      v ∈ (resolveVersion (.arr vs) p t o).available) ∧
    (∀ v ∈ (resolveVersion (.arr vs) p t o).available,
      v.publishDate ≤ p.norm) ∧
    (∀ v ∈ (resolveVersion (.arr vs) p t o).futureCovering,
      p.norm < v.publishDate) ∧
    (∀ v ∈ (resolveVersion (.arr vs) p t o).available,
      v ∉ (resolveVersion (.arr vs) p t o).futureCovering) ∧
    (resolveVersion (.arr vs) p t o).available.Pairwise
      (fun a b => a.publishDate ≤ b.publishDate) ∧
    (resolveVersion (.arr vs) p t o).candidates.Pairwise
      (fun a b => a.publishDate ≤ b.publishDate) ∧
    (resolveVersion (.arr vs) p t o).futureCovering.Pairwise
      (fun a b => a.publishDate ≤ b.publishDate) ∧
    (∀ m, (resolveVersion (.arr vs) p t o).«match» = some m →
      m ∈ (resolveVersion (.arr vs) p t o).candidates ∧
      m ∉ (resolveVersion (.arr vs) p t o).futureCovering) := by
  rw [resolveVersion_available, resolveVersion_candidates,
    resolveVersion_futureCovering, resolveVersion_match]
  refine ⟨?_, ?_, ?_, ?_, availableOf_pairwise vs p.norm,
    candidatesOf_pairwise vs p.norm (appliedInclusiveEnd o) t.norm,
    futureCoveringOf_pairwise vs p.norm (appliedInclusiveEnd o) t.norm, ?_⟩
  · intro v hv
    rw [candidatesOf] at hv
    exact List.mem_of_mem_filter hv
  · intro v hv
    exact (mem_availableOf.mp hv).2
  · intro v hv
    exact (mem_futureCoveringOf.mp hv).2.1
  · intro v hv hf
    exact absurd (mem_availableOf.mp hv).2
      (not_le.mpr (mem_futureCoveringOf.mp hf).2.1)
  · intro m hm
    have hc : candidatesOf vs p.norm (appliedInclusiveEnd o) t.norm ≠ [] := by
      intro he
      rw [he] at hm
      exact Option.noConfusion hm
    obtain ⟨m0, l1, l2, hfold, hsplit, _, _⟩ := foldl_pickNewer_none_char hc
    rw [hfold, Option.some.injEq] at hm
    subst hm
    have hmem : m0 ∈ candidatesOf vs p.norm (appliedInclusiveEnd o) t.norm := by
      rw [hsplit]
      exact List.mem_append_right l1 (List.mem_cons_self m0 l2)
    refine ⟨hmem, ?_⟩
    intro hf
    have h1 : m0.publishDate ≤ p.norm := (mem_candidatesOf.mp hmem).1.2
    exact absurd h1 (not_le.mpr (mem_futureCoveringOf.mp hf).2.1)

/-- Claim C5: an available record with `open ≤ close` resolved at
`travelDate = close` is a candidate under inclusive-end semantics and is
excluded under exclusive-end semantics, all else equal; and a record with
`open = close` is, inclusively, a candidate exactly when the travel
instant equals that one instant. -/
theorem claim_C5 (vs : List VersionRecord) (v : VersionRecord) (p : TimeArg)
    (hv : v ∈ vs) (hav : v.publishDate ≤ p.norm) :
    (v.«open» ≤ v.close →
      v ∈ (resolveVersion (.arr vs) p (.ms v.close)
        ⟨.bool true⟩).candidates ∧
      v ∉ (resolveVersion (.arr vs) p (.ms v.close)
        ⟨.bool false⟩).candidates) ∧
    (∀ tt : TimeArg, v.«open» = v.close →
      (v ∈ (resolveVersion (.arr vs) p tt ⟨.bool true⟩).candidates ↔
        tt.norm = v.close)) := by
  constructor
  · intro hoc
    constructor
    · rw [resolveVersion_candidates, mem_candidatesOf]
      refine ⟨⟨hv, hav⟩, ?_⟩
      simp [inRange, appliedInclusiveEnd, destructuredInclusiveEnd,
        JSVal.truthy, TimeArg.norm, hoc]
    · intro hmem
      rw [resolveVersion_candidates, mem_candidatesOf] at hmem
      have hr := hmem.2
      simp [inRange, appliedInclusiveEnd, destructuredInclusiveEnd,
        JSVal.truthy, TimeArg.norm] at hr
  · intro tt heq
    rw [resolveVersion_candidates, mem_candidatesOf]
    constructor
    · rintro ⟨-, hr⟩
      simp [inRange, appliedInclusiveEnd, destructuredInclusiveEnd,
        JSVal.truthy] at hr
      exact le_antisymm hr.2 (heq ▸ hr.1)
    · intro htn
      refine ⟨⟨hv, hav⟩, ?_⟩
      simp [inRange, appliedInclusiveEnd, destructuredInclusiveEnd,
        JSVal.truthy, htn, heq]

/-- Witness for claim C5 at a concrete input. -/
theorem claim_C5_witness :
    ((⟨"v1", 0, 100, 200⟩ : VersionRecord).«open» ≤
        (⟨"v1", 0, 100, 200⟩ : VersionRecord).close →
      (⟨"v1", 0, 100, 200⟩ : VersionRecord) ∈
        (resolveVersion (.arr [⟨"v1", 0, 100, 200⟩]) (.ms 50)
          (.ms (⟨"v1", 0, 100, 200⟩ : VersionRecord).close)
          ⟨.bool true⟩).candidates ∧
      (⟨"v1", 0, 100, 200⟩ : VersionRecord) ∉
        (resolveVersion (.arr [⟨"v1", 0, 100, 200⟩]) (.ms 50)
          (.ms (⟨"v1", 0, 100, 200⟩ : VersionRecord).close)
          ⟨.bool false⟩).candidates) ∧
    (∀ tt : TimeArg,
      (⟨"v1", 0, 100, 200⟩ : VersionRecord).«open» =
        (⟨"v1", 0, 100, 200⟩ : VersionRecord).close →
      ((⟨"v1", 0, 100, 200⟩ : VersionRecord) ∈
          (resolveVersion (.arr [⟨"v1", 0, 100, 200⟩]) (.ms 50) tt
            ⟨.bool true⟩).candidates ↔
        tt.norm = (⟨"v1", 0, 100, 200⟩ : VersionRecord).close)) :=
  claim_C5 [⟨"v1", 0, 100, 200⟩] ⟨"v1", 0, 100, 200⟩ (.ms 50)
    (by decide) (by decide)

lemma availableOf_perm {vs vs' : List VersionRecord} (h : vs'.Perm vs)
    (p : Int) : (availableOf vs' p).Perm (availableOf vs p) :=
  List.Perm.filter _
    (((sortByPublishDate_perm vs').trans h).trans
      (sortByPublishDate_perm vs).symm)

lemma candidatesOf_perm {vs vs' : List VersionRecord} (h : vs'.Perm vs)
    (p : Int) (incl : Bool) (t : Int) :
    (candidatesOf vs' p incl t).Perm (candidatesOf vs p incl t) :=
  List.Perm.filter _ (availableOf_perm h p)

/-- Counterexample to claim C3 as stated: the two records share
`publishDate` and `open` (but differ in `close` and name), both are
candidates, and the left-fold keeps whichever comes first in the stably
sorted order — so reversing the input changes the selected match. -/
theorem claim_C3_counterexample :
    ([⟨"vB", 100, 0, 300⟩, ⟨"vA", 100, 0, 200⟩] : List VersionRecord).Perm
      [⟨"vA", 100, 0, 200⟩, ⟨"vB", 100, 0, 300⟩] ∧
    ¬ ((resolveVersion (.arr [⟨"vB", 100, 0, 300⟩, ⟨"vA", 100, 0, 200⟩])
          (.ms 400) (.ms 50) ⟨.undef⟩).«match» =
        (resolveVersion (.arr [⟨"vA", 100, 0, 200⟩, ⟨"vB", 100, 0, 300⟩])
          (.ms 400) (.ms 50) ⟨.undef⟩).«match») := by
  constructor
  · decide
  · decide

/-- Claim C3 amended: provided no two records of the list agree on both
`publishDate` and `open` without being equal, permuting the input list
changes neither the match nor the reason. -/
theorem claim_C3_amended (vs vs' : List VersionRecord) (hperm : vs'.Perm vs)
    (hkey : ∀ a ∈ vs, ∀ b ∈ vs, a.publishDate = b.publishDate →
      a.«open» = b.«open» → a = b)
    (p t : TimeArg) (o : ResolveOptions) :
    (resolveVersion (.arr vs') p t o).«match» =
      (resolveVersion (.arr vs) p t o).«match» ∧
    (resolveVersion (.arr vs') p t o).reason =
      (resolveVersion (.arr vs) p t o).reason := by
  have hap := availableOf_perm hperm p.norm
  have hcp := candidatesOf_perm hperm p.norm (appliedInclusiveEnd o) t.norm
  have havail_iff : availableOf vs' p.norm = [] ↔
      availableOf vs p.norm = [] := by
    rw [← List.length_eq_zero, ← List.length_eq_zero, hap.length_eq]
  have hcand_iff :
      candidatesOf vs' p.norm (appliedInclusiveEnd o) t.norm = [] ↔
      candidatesOf vs p.norm (appliedInclusiveEnd o) t.norm = [] := by
    rw [← List.length_eq_zero, ← List.length_eq_zero, hcp.length_eq]
  constructor
  · rw [resolveVersion_match, resolveVersion_match]
    by_cases hc : candidatesOf vs p.norm (appliedInclusiveEnd o) t.norm = []
    · rw [hc, hcand_iff.mpr hc]
    · have hc' :
          candidatesOf vs' p.norm (appliedInclusiveEnd o) t.norm ≠ [] :=
        fun he => hc (hcand_iff.mp he)
      obtain ⟨m, l1, l2, hfold, hsplit, _, hle⟩ :=
        foldl_pickNewer_none_char hc
      obtain ⟨m', l1', l2', hfold', hsplit', _, hle'⟩ :=
        foldl_pickNewer_none_char hc'
      rw [hfold, hfold', Option.some.injEq]
      have hm_mem :
          m ∈ candidatesOf vs p.norm (appliedInclusiveEnd o) t.norm := by
        rw [hsplit]
        exact List.mem_append_right l1 (List.mem_cons_self m l2)
      have hm'_mem :
          m' ∈ candidatesOf vs' p.norm (appliedInclusiveEnd o) t.norm := by
        rw [hsplit']
        exact List.mem_append_right l1' (List.mem_cons_self m' l2')
      have hm'_mem2 :
          m' ∈ candidatesOf vs p.norm (appliedInclusiveEnd o) t.norm :=
        hcp.mem_iff.mp hm'_mem
      have h1 : pubOpenLe m' m := hle m' hm'_mem2
      have h2 : pubOpenLe m m' := hle' m (hcp.mem_iff.mpr hm_mem)
      obtain ⟨he1, he2⟩ := pubOpenLe_key_antisymm h2 h1
      exact hkey m' (mem_candidatesOf.mp hm'_mem2).1.1
        m (mem_candidatesOf.mp hm_mem).1.1 he1.symm he2.symm
  · rw [resolveVersion_reason, resolveVersion_reason]
    by_cases h1 : availableOf vs p.norm = []
    · rw [if_pos h1, if_pos (havail_iff.mpr h1)]
    · rw [if_neg h1, if_neg (fun he => h1 (havail_iff.mp he))]
      by_cases h2 :
          candidatesOf vs p.norm (appliedInclusiveEnd o) t.norm = []
      · rw [if_pos h2, if_pos (hcand_iff.mpr h2)]
      · rw [if_neg h2, if_neg (fun he => h2 (hcand_iff.mp he))]

/-- Witness for the amended claim C3 at a concrete input. -/
theorem claim_C3_amended_witness :
    (resolveVersion (.arr [⟨"v2", 150, 100, 200⟩, ⟨"v1", 100, 100, 200⟩])
        (.ms 160) (.ms 150) ⟨.undef⟩).«match» =
      (resolveVersion (.arr [⟨"v1", 100, 100, 200⟩, ⟨"v2", 150, 100, 200⟩])
        (.ms 160) (.ms 150) ⟨.undef⟩).«match» ∧
    (resolveVersion (.arr [⟨"v2", 150, 100, 200⟩, ⟨"v1", 100, 100, 200⟩])
        (.ms 160) (.ms 150) ⟨.undef⟩).reason =
      (resolveVersion (.arr [⟨"v1", 100, 100, 200⟩, ⟨"v2", 150, 100, 200⟩])
        (.ms 160) (.ms 150) ⟨.undef⟩).reason :=
  claim_C3_amended [⟨"v1", 100, 100, 200⟩, ⟨"v2", 150, 100, 200⟩]
    [⟨"v2", 150, 100, 200⟩, ⟨"v1", 100, 100, 200⟩]
    (by decide) (by decide) (.ms 160) (.ms 150) ⟨.undef⟩

/-- Counterexample to claim C4 as stated: `inclusiveEnd = 0` is a value
other than strictly `false`, yet the destructuring default does not fire
(only `undefined` triggers it) and the ternary applies JS falsiness, so
the end boundary is treated exclusively — the available record whose
`close` equals the travel instant is not a candidate — while the echoed
normalized option `options.inclusiveEnd !== false` still reports `true`,
differing from the applied inclusivity. -/
theorem claim_C4_counterexample :
    (ResolveOptions.mk (.num 0)).inclusiveEnd ≠ JSVal.bool false ∧
    appliedInclusiveEnd ⟨.num 0⟩ = false ∧
    (⟨"v1", 0, 100, 200⟩ : VersionRecord) ∈
      (resolveVersion (.arr [⟨"v1", 0, 100, 200⟩]) (.ms 150) (.ms 200)
        ⟨.num 0⟩).available ∧
    (resolveVersion (.arr [⟨"v1", 0, 100, 200⟩]) (.ms 150) (.ms 200)
        ⟨.num 0⟩).candidates = [] ∧
    (resolveVersion (.arr [⟨"v1", 0, 100, 200⟩]) (.ms 150) (.ms 200)
        ⟨.num 0⟩).options.inclusiveEnd = true := by
  decide

/-- Claim C4 amended: when `options.inclusiveEnd` is absent or a strict
boolean, the end boundary is treated inclusively exactly when it is not
strictly `false`, the applied inclusivity coincides with the normalized
`inclusiveEnd` echoed in the result, and the candidate set is governed by
the coverage predicate at that inclusivity.  (For a present non-boolean
value the applied rule follows JS truthiness and may differ from the
echo, as the counterexample shows.) -/
theorem claim_C4_amended (o : ResolveOptions)
    (h : o.inclusiveEnd = .undef ∨ o.inclusiveEnd = .bool true ∨
      o.inclusiveEnd = .bool false) :
    (appliedInclusiveEnd o = true ↔ o.inclusiveEnd ≠ .bool false) ∧
    appliedInclusiveEnd o = echoedInclusiveEnd o ∧
    ∀ (vs : List VersionRecord) (p t : TimeArg),
      (resolveVersion (.arr vs) p t o).options.inclusiveEnd =
        appliedInclusiveEnd o ∧
      (∀ v, v ∈ (resolveVersion (.arr vs) p t o).candidates ↔
        v ∈ (resolveVersion (.arr vs) p t o).available ∧
          inRange (appliedInclusiveEnd o) t.norm v = true) := by
  have key : appliedInclusiveEnd o = echoedInclusiveEnd o := by
    rcases h with h | h | h <;>
      simp [appliedInclusiveEnd, destructuredInclusiveEnd, JSVal.truthy,
        echoedInclusiveEnd, h]
  refine ⟨?_, key, ?_⟩
  · rw [key]
    simp [echoedInclusiveEnd]
  · intro vs p t
    constructor
    · rw [resolveVersion_options]
      exact key.symm
    · intro v
      rw [resolveVersion_candidates, resolveVersion_available,
        candidatesOf, List.mem_filter]
  
/-- Witness for the amended claim C4 at a concrete input. -/
theorem claim_C4_amended_witness :
    (appliedInclusiveEnd ⟨.bool false⟩ = true ↔
      (ResolveOptions.mk (.bool false)).inclusiveEnd ≠ .bool false) ∧
    appliedInclusiveEnd ⟨.bool false⟩ = echoedInclusiveEnd ⟨.bool false⟩ ∧
    ∀ (vs : List VersionRecord) (p t : TimeArg),
      (resolveVersion (.arr vs) p t ⟨.bool false⟩).options.inclusiveEnd =
        appliedInclusiveEnd ⟨.bool false⟩ ∧
      (∀ v, v ∈ (resolveVersion (.arr vs) p t ⟨.bool false⟩).candidates ↔
        v ∈ (resolveVersion (.arr vs) p t ⟨.bool false⟩).available ∧
          inRange (appliedInclusiveEnd ⟨.bool false⟩) t.norm v = true) :=
  claim_C4_amended ⟨.bool false⟩ (by decide)

/-- Claim C9: whenever `futureCovering` is non-empty and the reason is
`NO_VERSION_COVERS_TRAVEL_DATE` or `OK`, the explanation's aside names the
future-covering record with the greatest `publishDate` (the last of the
`publishDate`-ascending echo) together with its publish date; in the
`NO_VERSION_COVERS_TRAVEL_DATE` case the explanation also states the number
of available versions. -/
theorem claim_C9 (vs : List VersionRecord) (p t : TimeArg)
    (o : ResolveOptions) :
    ((resolveVersion (.arr vs) p t o).reason =
        "NO_VERSION_COVERS_TRAVEL_DATE" →
      (resolveVersion (.arr vs) p t o).futureCovering ≠ [] →
      ∃ f, (resolveVersion (.arr vs) p t o).futureCovering.getLast? =
          some f ∧
        f ∈ (resolveVersion (.arr vs) p t o).futureCovering ∧
        (∀ g ∈ (resolveVersion (.arr vs) p t o).futureCovering,
          g.publishDate ≤ f.publishDate) ∧
        (resolveVersion (.arr vs) p t o).explanation =
          noCoverBase (resolveVersion (.arr vs) p t o).available.length
            (fmt p.norm) (fmt t.norm)
            (if appliedInclusiveEnd o then "inkludert" else "eksklusiv") ++
          noCoverFutureAside f) ∧
    ((resolveVersion (.arr vs) p t o).reason = "OK" →
      (resolveVersion (.arr vs) p t o).futureCovering ≠ [] →
      ∃ f m, (resolveVersion (.arr vs) p t o).«match» = some m ∧
        (resolveVersion (.arr vs) p t o).futureCovering.getLast? = some f ∧
        f ∈ (resolveVersion (.arr vs) p t o).futureCovering ∧
        (∀ g ∈ (resolveVersion (.arr vs) p t o).futureCovering,
          g.publishDate ≤ f.publishDate) ∧
        (resolveVersion (.arr vs) p t o).explanation =
          okMain m (fmt p.norm) (fmt t.norm)
            (if appliedInclusiveEnd o then "inkludert" else "eksklusiv") ++
          okOlderNote (resolveVersion (.arr vs) p t o).candidates.length m ++
          okFutureAside f) := by
  have hfc := resolveVersion_futureCovering vs p t o
  constructor
  · intro hreason hne
    rw [hfc] at hne
    obtain ⟨f, hf⟩ : ∃ f,
        (futureCoveringOf vs p.norm (appliedInclusiveEnd o)
          t.norm).getLast? = some f := by
      cases hgl : (futureCoveringOf vs p.norm (appliedInclusiveEnd o)
          t.norm).getLast? with
      | none => exact absurd (List.getLast?_eq_none_iff.mp hgl) hne
      | some f => exact ⟨f, rfl⟩
    refine ⟨f, by rw [hfc]; exact hf,
      by rw [hfc]; exact getLast?_mem_of_eq_some hf, ?_, ?_⟩
    · intro g hg
      rw [hfc] at hg
      exact pairwise_getLast?_max
        (futureCoveringOf_pairwise vs p.norm (appliedInclusiveEnd o) t.norm)
        hf g hg
    · rw [resolveVersion_explanation, hreason, hfc]
      simp only [buildExplanation]
      rw [if_pos trivial, hf, if_neg (by decide :
        ¬ ("NO_VERSION_COVERS_TRAVEL_DATE" : String) =
          "NO_AVAILABLE_VERSIONS")]
  · intro hreason hne
    rw [hfc] at hne
    obtain ⟨f, hf⟩ : ∃ f,
        (futureCoveringOf vs p.norm (appliedInclusiveEnd o)
          t.norm).getLast? = some f := by
      cases hgl : (futureCoveringOf vs p.norm (appliedInclusiveEnd o)
          t.norm).getLast? with
      | none => exact absurd (List.getLast?_eq_none_iff.mp hgl) hne
      | some f => exact ⟨f, rfl⟩
    have hcand :
        candidatesOf vs p.norm (appliedInclusiveEnd o) t.norm ≠ [] := by
      intro he
      rw [resolveVersion_reason] at hreason
      by_cases ha : availableOf vs p.norm = []
      · rw [if_pos ha] at hreason
        exact absurd hreason (by decide)
      · rw [if_neg ha, if_pos he] at hreason
        exact absurd hreason (by decide)
    obtain ⟨m, l1, l2, hfold, _, _, _⟩ := foldl_pickNewer_none_char hcand
    refine ⟨f, m, by rw [resolveVersion_match]; exact hfold,
      by rw [hfc]; exact hf,
      by rw [hfc]; exact getLast?_mem_of_eq_some hf, ?_, ?_⟩
    · intro g hg
      rw [hfc] at hg
      exact pairwise_getLast?_max
        (futureCoveringOf_pairwise vs p.norm (appliedInclusiveEnd o) t.norm)
        hf g hg
    · rw [resolveVersion_explanation, hreason, hfc,
        resolveVersion_match, hfold]
      simp only [buildExplanation]
      rw [if_pos trivial, hf, if_neg (by decide :
        ¬ ("OK" : String) = "NO_AVAILABLE_VERSIONS"), if_neg (by decide :
        ¬ ("OK" : String) = "NO_VERSION_COVERS_TRAVEL_DATE")]
